import Mathlib

/-!
Verification development for the Morph repository (geodesic morphology and
spatial-transform engine).

Part 1 embeds `src/Morph/operators.py` over images typed as functions
`Fin m → Fin n → ℕ` (2-D integer arrays of a fixed shape).  Part 2 embeds the
shape-checking behaviour of the numpy calls over untyped arrays with explicit
shape metadata.  Part 3 embeds the helpers of `src/Morph/features.py`
(`_layer`, `_padding_func`, `_distance`) over ℕ-indexed arrays with explicit
shape parameters, since the hexagonal remap changes array shapes.  Part 4 is a
small heap model used for the frame properties of the `Distance`/`Layer`
wrapper methods.  While-loops of the source are embedded with an explicit fuel
parameter; theorems about a loop's result carry the hypothesis that the loop
reaches its exit condition within the given fuel.
-/

namespace Morph

/-! ## Generic list helpers -/

/-- Fold a list of naturals with `min`; the default is returned for `[]`. -/
def listMinD : List ℕ → ℕ → ℕ
  | [], d => d
  | v :: vs, _ => vs.foldr min v

/-- Fold a list of rationals with `min`; `0` is returned for `[]`. -/
def listMinQ : List ℚ → ℚ
  | [] => 0
  | v :: vs => vs.foldr min v

/-- Sequential in-place array assignment: apply a list of keyed writes from
left to right (later writes win), starting from a base array.  This models
numpy fancy assignment `a[keys] = values` and sequences of scalar stores. -/
def applyWrites {K V : Type} [DecidableEq K] (l : List (K × V)) (A : K → V) : K → V :=
  l.foldl (fun acc kv => Function.update acc kv.1 kv.2) A

/-! ## Part 1: operators.py over `Fin`-typed images -/

/-- A 2-D integer image of shape `(m, n)`: value `0` is background, nonzero
values are binary foreground markers or region labels. -/
abbrev FImg (m n : ℕ) := Fin m → Fin n → ℕ

/-- Read pixel `(x, y)` of an image, returning `d` out of bounds. -/
def getD {m n : ℕ} (img : FImg m n) (x y : ℤ) (d : ℕ) : ℕ :=
  if h : 0 ≤ x ∧ x < (m : ℤ) ∧ 0 ≤ y ∧ y < (n : ℤ) then
    img ⟨x.toNat, by omega⟩ ⟨y.toNat, by omega⟩
  else d

/-- Read pixel `(x, y)` of an image, `none` out of bounds. -/
def getOpt {m n : ℕ} (img : FImg m n) (x y : ℤ) : Option ℕ :=
  if h : 0 ≤ x ∧ x < (m : ℤ) ∧ 0 ≤ y ∧ y < (n : ℤ) then
    some (img ⟨x.toNat, by omega⟩ ⟨y.toNat, by omega⟩)
  else none

/-- A structuring element: the list of offsets at which the footprint array is
one, relative to its centre. -/
abbrev SElem := List (ℤ × ℤ)

/-- The default 4-connected cross footprint. -/
def crossSE : SElem := [((0 : ℤ), (0 : ℤ)), (1, 0), (-1, 0), (0, 1), (0, -1)]

/-- Models `skimage.morphology.dilation` (`operators.erosion`'s dual,
`operators.py` line 46): each pixel becomes the maximum of the image over the
footprint neighbourhood.  Out-of-border neighbours do not contribute (the
border never raises the maximum for the non-negative images used here). -/
def dilation {m n : ℕ} (img : FImg m n) (E : SElem) : FImg m n :=
  fun i j =>
    (E.map (fun o => getD img ((i : ℤ) + o.1) ((j : ℤ) + o.2) 0)).foldr max 0

/-- Models `skimage.morphology.erosion` (`operators.py` line 29): each pixel
becomes the minimum of the image over the footprint neighbourhood.
Out-of-border neighbours are ignored (the border never lowers the minimum;
for the default cross footprint this matches skimage's reflected border), and
a footprint with no in-bounds offset falls back to the pixel itself. -/
def erosion {m n : ℕ} (img : FImg m n) (E : SElem) : FImg m n :=
  fun i j =>
    listMinD (E.filterMap (fun o => getOpt img ((i : ℤ) + o.1) ((j : ℤ) + o.2)))
      (img i j)

/-- `operators.geodesic_erosion`: erosion of the marker clamped from below by
the mask, `numpy.maximum(mask_image, erosion(marker_image, element))`. -/
def geodesic_erosion {m n : ℕ} (marker mask : FImg m n) (E : SElem) : FImg m n :=
  fun i j => max (mask i j) (erosion marker E i j)

/-- `operators.geodesic_dilation`: dilation of the marker clamped from above
by the mask, `numpy.minimum(mask_image, dilation(marker_image, element))`. -/
def geodesic_dilation {m n : ℕ} (marker mask : FImg m n) (E : SElem) : FImg m n :=
  fun i j => min (mask i j) (dilation marker E i j)

/-- One step of morphological reconstruction by dilation: the flooding update
`min(mask, max(x, dilation(x)))`.  This is the update computed by
`skimage.morphology.reconstruction(..., method='dilation')`; it agrees with a
plain geodesic dilation step whenever the footprint contains its origin (the
skimage default). -/
def reconStepD {m n : ℕ} (mask : FImg m n) (E : SElem) (x : FImg m n) : FImg m n :=
  fun i j => min (mask i j) (max (x i j) (dilation x E i j))

/-- One step of morphological reconstruction by erosion, dually
`max(mask, min(x, erosion(x)))`. -/
def reconStepE {m n : ℕ} (mask : FImg m n) (E : SElem) (x : FImg m n) : FImg m n :=
  fun i j => max (mask i j) (min (x i j) (erosion x E i j))

/-- Iterate a reconstruction step until the iterate stops changing, with an
explicit fuel bound on the number of steps. -/
def reconLoop {m n : ℕ} (step : FImg m n → FImg m n) : ℕ → FImg m n → FImg m n
  | 0, x => x
  | f + 1, x =>
    let y := step x
    if y = x then x else reconLoop step f y

/-- `operators.reconstruction_by_dilation`: skimage requires the marker to lie
below the mask pointwise (it raises a ValueError otherwise, modelled as
`none`), then iterates geodesic dilation to stability.  The final
`numpy.astype` back to the marker dtype is the identity here since every
iterate already takes integer values from the marker and mask. -/
def reconstruction_by_dilation {m n : ℕ} (marker mask : FImg m n) (E : SElem)
    (fuel : ℕ) : Option (FImg m n) :=
  if ∀ i j, marker i j ≤ mask i j then
    some (reconLoop (reconStepD mask E) fuel marker)
  else none

/-- `operators.reconstruction_by_erosion`: dual of the above, requiring the
marker to lie above the mask pointwise. -/
def reconstruction_by_erosion {m n : ℕ} (marker mask : FImg m n) (E : SElem)
    (fuel : ℕ) : Option (FImg m n) :=
  if ∀ i j, mask i j ≤ marker i j then
    some (reconLoop (reconStepE mask E) fuel marker)
  else none

/-- The one-pixel seed marker `dilated = zeros_like(image); dilated[x, y] = 1`
of `operators.propagation_function`. -/
def seedAt {m n : ℕ} (i : Fin m) (j : Fin n) : FImg m n :=
  fun a b => if a = i ∧ b = j then 1 else 0

/-- The `while not array_equal(dilated, reconstructed)` loop of
`operators.propagation_function`: count geodesic-dilation steps until the
marker equals the target, with an explicit fuel bound (`0` on exhaustion). -/
def propLoop {m n : ℕ} (mask : FImg m n) (E : SElem) (target : FImg m n) :
    ℕ → FImg m n → ℕ
  | 0, _ => 0
  | f + 1, x =>
    if x = target then 0
    else propLoop mask E target f (geodesic_dilation x mask E) + 1

/-- `operators.propagation_function` (lines 185-196).  The source loops over
`numpy.where(image)` and writes each foreground cell once (the writes are
cell-disjoint and depend only on `image`), so the array accumulation is the
following pointwise map: background cells keep the initial zero, and each
foreground cell records its step count. -/
def propagation_function {m n : ℕ} (img : FImg m n) (E : SElem)
    (fuelR fuelW : ℕ) : FImg m n :=
  fun i j =>
    if img i j ≠ 0 then
      match reconstruction_by_dilation (seedAt i j) img E fuelR with
      | some r => propLoop img E r fuelW (seedAt i j)
      | none => 0
    else 0

/-! ## Part 2: untyped arrays with shape metadata (numpy broadcasting)

`geodesic_erosion`/`geodesic_dilation` perform no explicit shape check: the
only shape discipline comes from `numpy.maximum`/`numpy.minimum`, which
broadcast their operands and raise only when the shapes are not
broadcastable.  This part models that behaviour for 2-D arrays. -/

/-- An untyped 2-D numpy array: a shape `(r, c)` plus its values. -/
structure NArr where
  r : ℕ
  c : ℕ
  val : ℕ → ℕ → ℕ

/-- numpy broadcasting of one axis: lengths must be equal or one of them 1
(`none` models the `ValueError` raised for non-broadcastable operands). -/
def bshape (a b : ℕ) : Option ℕ :=
  if a = b then some a else if a = 1 then some b else if b = 1 then some a else none

/-- A numpy element-wise binary ufunc on 2-D arrays with broadcasting
(`numpy.maximum`, `numpy.minimum`): an axis of length 1 is repeated along the
other operand's axis. -/
def broadcastWith (f : ℕ → ℕ → ℕ) (A B : NArr) : Option NArr :=
  match bshape A.r B.r, bshape A.c B.c with
  | some r, some c =>
    some ⟨r, c, fun i j =>
      f (A.val (if A.r = 1 then 0 else i) (if A.c = 1 then 0 else j))
        (B.val (if B.r = 1 then 0 else i) (if B.c = 1 then 0 else j))⟩
  | _, _ => none

/-- Bounds-checked read of an untyped array, `none` out of bounds. -/
def getOptN (h w : ℕ) (A : ℕ → ℕ → ℕ) (x y : ℤ) : Option ℕ :=
  if 0 ≤ x ∧ x < (h : ℤ) ∧ 0 ≤ y ∧ y < (w : ℤ) then some (A x.toNat y.toNat) else none

/-- `skimage.morphology.erosion` on an untyped array: same model as `erosion`,
shape preserved. -/
def erosionN (A : NArr) (E : SElem) : NArr :=
  ⟨A.r, A.c, fun i j =>
    listMinD (E.filterMap fun o => getOptN A.r A.c A.val ((i : ℤ) + o.1) ((j : ℤ) + o.2))
      (A.val i j)⟩

/-- `skimage.morphology.dilation` on an untyped array, shape preserved. -/
def dilationN (A : NArr) (E : SElem) : NArr :=
  ⟨A.r, A.c, fun i j =>
    (E.map fun o => (getOptN A.r A.c A.val ((i : ℤ) + o.1) ((j : ℤ) + o.2)).getD 0).foldr
      max 0⟩

/-- `operators.geodesic_erosion` at the untyped level:
`numpy.maximum(mask_image, erosion(marker_image, element))`; `none` models the
numpy broadcast error. -/
def geodesic_erosionN (marker mask : NArr) (E : SElem) : Option NArr :=
  broadcastWith (fun a b => max a b) mask (erosionN marker E)

/-- `operators.geodesic_dilation` at the untyped level:
`numpy.minimum(mask_image, dilation(marker_image, element))`. -/
def geodesic_dilationN (marker mask : NArr) (E : SElem) : Option NArr :=
  broadcastWith (fun a b => min a b) mask (dilationN marker E)

/-! ## Part 3: features.py helpers over ℕ-indexed arrays

The hexagonal remap of `_distance` produces arrays of a different shape, so
this part uses total functions `ℕ → ℕ → _` together with explicit shape
parameters; all claims are read at in-shape indices. -/

/-- Booleans as the 0/1 naturals numpy arithmetic sees. -/
def b2n (b : Bool) : ℕ := if b then 1 else 0

/-- Bounds-checked boolean read with an explicit border value, as used by
`scipy.ndimage.binary_erosion(..., border_value=...)`. -/
def readB (h w : ℕ) (bv : Bool) (X : ℕ → ℕ → Bool) (x y : ℤ) : Bool :=
  if 0 ≤ x ∧ x < (h : ℤ) ∧ 0 ≤ y ∧ y < (w : ℤ) then X x.toNat y.toNat else bv

/-- `scipy.ndimage.binary_erosion` with structure offsets `S` and border value
`bv`: a pixel survives iff every structure offset lands on a true pixel (out
of bounds reading the border value).  Out-of-shape outputs are false.  scipy
copies internally when `output` aliases the input, so the step is pure. -/
def bErode (h w : ℕ) (S : SElem) (bv : Bool) (X : ℕ → ℕ → Bool) : ℕ → ℕ → Bool :=
  fun i j =>
    decide (i < h) && decide (j < w) &&
      S.all (fun o => readB h w bv X ((i : ℤ) + o.1) ((j : ℤ) + o.2))

/-- `numpy.any` over the in-shape part of a boolean array (`features._any`). -/
def anyImg (h w : ℕ) (X : ℕ → ℕ → Bool) : Bool :=
  (List.range h).any fun i => (List.range w).any fun j => X i j

/-- The in-place masking `image[tissue == 0] = border_value` performed at the
top of `_distance` and `_layer`. -/
def maskedInit (img tissue : ℕ → ℕ → Bool) (bv : Bool) : ℕ → ℕ → Bool :=
  fun i j => if tissue i j then img i j else bv

/-- The `while _any(image)` loop of `_layer`: repeatedly erode the working
image, adding the eroded indicator into the layer count, with fuel. -/
def layerLoop (h w : ℕ) (S : SElem) (bv : Bool) :
    ℕ → ((ℕ → ℕ → ℕ) × (ℕ → ℕ → Bool)) → ((ℕ → ℕ → ℕ) × (ℕ → ℕ → Bool))
  | 0, s => s
  | f + 1, (L, X) =>
    if anyImg h w X then
      layerLoop h w S bv f
        (fun i j => L i j + b2n (bErode h w S bv X i j), bErode h w S bv X)
    else (L, X)

/-- `features._layer` (lines 161-187): mask to the border value, take
`layers = image * 1`, run the erosion loop, then zero the tissue-false
pixels.  A `none` tissue argument corresponds to the all-true mask. -/
def layerFn (h w : ℕ) (img : ℕ → ℕ → Bool) (S : SElem) (bv : Bool)
    (tissue : ℕ → ℕ → Bool) (fuel : ℕ) : ℕ → ℕ → ℕ :=
  let X0 := maskedInit img tissue bv
  let res := layerLoop h w S bv fuel (fun i j => b2n (X0 i j), X0)
  fun i j => if tissue i j then res.1 i j else 0

/-- The aliasing flips `pad[0] = 1 - pad[0]; pad[-1] = 1 - pad[-1]` at the end
of `features._padding_func`, on the mutable keyword list `pad`: for a
one-element list both updates hit the same cell. -/
def padFlip (pad : List ℕ) : List ℕ :=
  let p1 := pad.set 0 (1 - pad.headD 0)
  p1.set (p1.length - 1) (1 - p1.getLastD 0)

/-- The border writes performed by `numpy.pad(image, 1, _padding_func, pad=p)`
on a 2-D array of shape `(H, W)`.  numpy first zero-pads to `(H+2, W+2)`,
then applies the callback to every length-`H+2` column (axis 0, columns in
order), then to every length-`W+2` row (axis 1, rows in order); each call
writes the current `pad[0]` at the first position and `pad[-1]` at the last,
then performs the two flips, so call `k` sees state `padFlip^[k] pad0`. -/
def padWrites (H W : ℕ) (pad0 : List ℕ) : List ((ℕ × ℕ) × ℕ) :=
  ((List.range (W + 2)).flatMap fun j =>
    [((0, j), (padFlip^[j] pad0).headD 0),
     ((H + 1, j), (padFlip^[j] pad0).getLastD 0)]) ++
  ((List.range (H + 2)).flatMap fun i =>
    [((i, 0), (padFlip^[W + 2 + i] pad0).headD 0),
     ((i, W + 1), (padFlip^[W + 2 + i] pad0).getLastD 0)])

/-- `numpy.pad(A, 1, _padding_func, pad=pad0)` for a 2-D array of shape
`(H, W)`: interior cells keep the image, border cells receive the callback
writes (later writes win, matching the axis-1 pass overwriting corners). -/
def npPad2 (H W : ℕ) (A : ℕ → ℕ → ℕ) (pad0 : List ℕ) : ℕ → ℕ → ℕ :=
  fun i j =>
    applyWrites (padWrites H W pad0)
      (fun c => if 1 ≤ c.1 ∧ c.1 ≤ H ∧ 1 ≤ c.2 ∧ c.2 ≤ W then A (c.1 - 1) (c.2 - 1) else 0)
      (i, j)

/-- The one-pixel-per-side constant padding described by the spec ("pad the
image by one pixel on every side with a value"), for comparison with the
callback-driven `npPad2`. -/
def specConstPad (H W : ℕ) (b : ℕ) (A : ℕ → ℕ → ℕ) : ℕ → ℕ → ℕ :=
  fun i j =>
    if 1 ≤ i ∧ i ≤ H ∧ 1 ≤ j ∧ j ≤ W then A (i - 1) (j - 1)
    else if i ≤ H + 1 ∧ j ≤ W + 1 then b else 0

/-- The coordinates produced by `_nonzero(checkerboard)` for
`checkerboard = 1 - sum(grid) % 2` over shape `(H, W)`: row-major order, the
cells with even coordinate sum. -/
def checkCoords (H W : ℕ) : List (ℕ × ℕ) :=
  ((List.range H).product (List.range W)).filter fun c => (c.1 + c.2) % 2 == 0

/-- The hexagonal forward index map `(x, y) ↦ ((x + y) // 2, y)` used by both
remap directions of `_distance`. -/
def fwd (c : ℕ × ℕ) : ℕ × ℕ := ((c.1 + c.2) / 2, c.2)

/-- The in-shape zero pixels of an array, row-major (the feature points of
`scipy.ndimage.distance_transform_edt`). -/
def zerosList (H W : ℕ) (A : ℕ → ℕ → ℕ) : List (ℕ × ℕ) :=
  ((List.range H).product (List.range W)).filter fun c => A c.1 c.2 == 0

/-- Squared sampled Euclidean distance between two pixels, with squared
per-axis samplings `s1`, `s2`. -/
def sqDist (s1 s2 : ℚ) (p q : ℕ × ℕ) : ℚ :=
  s1 * ((((p.1 : ℤ) - q.1) ^ 2 : ℤ) : ℚ) + s2 * ((((p.2 : ℤ) - q.2) ^ 2 : ℤ) : ℚ)

/-- Models `scipy.ndimage.distance_transform_edt(A, sampling)` up to the
strictly monotone square root: each pixel gets the squared sampled distance
to the nearest zero pixel (zero pixels get 0).  `s1`, `s2` are the squares of
the per-axis samplings; no claim below depends on the unsquared magnitudes. -/
def edt2 (H W : ℕ) (A : ℕ → ℕ → ℕ) (s1 s2 : ℚ) : ℕ → ℕ → ℚ :=
  fun i j => listMinQ ((zerosList H W A).map (sqDist s1 s2 (i, j)))

/-- `features._distance` (lines 117-158) over a boolean image of shape
`(h, w)`: mask to the border value; optionally remap to the tall hexagonal
checkerboard of shape `(2h - w, w)` with squared samplings `(50², (50·√3)²)`;
pad one pixel per side through `_padding_func` (pad list `[0, 1]` for the
border-0 visium call, else `[border_value]`); run the distance transform;
strip the padding; optionally remap back; zero the tissue-false pixels.
`sq` is the squared scalar sampling of the non-visium call.  The returned
pair is (shape, values). -/
def distanceFn (h w : ℕ) (img : ℕ → ℕ → Bool) (sq : ℚ) (bv : Bool)
    (tissue : ℕ → ℕ → Bool) (visium : Bool) : (ℕ × ℕ) × (ℕ → ℕ → ℚ) :=
  let image1 := maskedInit img tissue bv
  if visium then
    let H := 2 * h - w
    let cc := checkCoords H w
    let unmapped : ℕ × ℕ → Bool :=
      applyWrites (cc.map fun c => (c, image1 ((c.1 + c.2) / 2) c.2)) (fun _ => true)
    let pad0 : List ℕ := if bv = false then [0, 1] else [1]
    let padded := npPad2 H w (fun i j => b2n (unmapped (i, j))) pad0
    let edt := edt2 (H + 2) (w + 2) padded 2500 7500
    let stripped : ℕ → ℕ → ℚ := fun i j => edt (i + 1) (j + 1)
    let mappedP : ℕ × ℕ → ℚ :=
      applyWrites (cc.map fun c => (fwd c, stripped c.1 c.2)) (fun _ => 0)
    (((H + w) / 2, w), fun i j => if tissue i j then mappedP (i, j) else 0)
  else
    let padded := npPad2 h w (fun i j => b2n (image1 i j)) [b2n bv]
    let edt := edt2 (h + 2) (w + 2) padded sq sq
    ((h, w), fun i j => if tissue i j then edt (i + 1) (j + 1) else 0)

/-- The binarisation at the top of every `Distance`/`Layer` method:
`image != 0` when no index is given, `numpy.isin(image, list(index))`
otherwise.  Both build a fresh boolean array. -/
def binarize (img : ℕ → ℕ → ℕ) (index : Option (List ℕ)) : ℕ → ℕ → Bool :=
  match index with
  | none => fun i j => decide (img i j ≠ 0)
  | some l => fun i j => decide (img i j ∈ l)

namespace Distance

/-- `Distance.minimum`: `_distance(~image, d, 0, tissue, method) -
_distance(image, d, 1, tissue, method)`. -/
def minimum (h w : ℕ) (img : ℕ → ℕ → ℕ) (index : Option (List ℕ))
    (tissue : ℕ → ℕ → Bool) (sq : ℚ) (visium : Bool) : (ℕ × ℕ) × (ℕ → ℕ → ℚ) :=
  let b := binarize img index
  let d1 := distanceFn h w (fun i j => !(b i j)) sq false tissue visium
  let d2 := distanceFn h w b sq true tissue visium
  (d1.1, fun i j => d1.2 i j - d2.2 i j)

/-- `Distance.maximum`: the dual with border values 1 and 0. -/
def maximum (h w : ℕ) (img : ℕ → ℕ → ℕ) (index : Option (List ℕ))
    (tissue : ℕ → ℕ → Bool) (sq : ℚ) (visium : Bool) : (ℕ × ℕ) × (ℕ → ℕ → ℚ) :=
  let b := binarize img index
  let d1 := distanceFn h w (fun i j => !(b i j)) sq true tissue visium
  let d2 := distanceFn h w b sq false tissue visium
  (d1.1, fun i j => d1.2 i j - d2.2 i j)

end Distance

namespace Layer

/-- `Layer.minimum`: `_layer(~image, element, 0, tissue) -
_layer(image, element, 1, tissue)` (integer subtraction can go negative). -/
def minimum (h w : ℕ) (img : ℕ → ℕ → ℕ) (index : Option (List ℕ))
    (tissue : ℕ → ℕ → Bool) (S : SElem) (fuel : ℕ) : ℕ → ℕ → ℤ :=
  let b := binarize img index
  fun i j =>
    (layerFn h w (fun a b' => !(b a b')) S false tissue fuel i j : ℤ) -
      (layerFn h w b S true tissue fuel i j : ℤ)

/-- `Layer.maximum`: the dual with border values 1 and 0. -/
def maximum (h w : ℕ) (img : ℕ → ℕ → ℕ) (index : Option (List ℕ))
    (tissue : ℕ → ℕ → Bool) (S : SElem) (fuel : ℕ) : ℕ → ℕ → ℤ :=
  let b := binarize img index
  fun i j =>
    (layerFn h w (fun a b' => !(b a b')) S true tissue fuel i j : ℤ) -
      (layerFn h w b S false tissue fuel i j : ℤ)

end Layer

/-! ## Part 4: heap model for the frame properties

numpy arrays are mutable references; the helpers `_distance` and `_layer`
assign into their `image` argument in place.  This part models the store as a
map from references to arrays (values in ℚ, covering boolean 0/1, integer and
float arrays) and the wrapper methods as store transformers, so that
"the caller's arrays are unchanged" is expressible. -/

/-- A store of 2-D arrays: the next fresh reference and the contents. -/
structure Heap where
  next : ℕ
  mem : ℕ → ℕ → ℕ → ℚ

/-- Allocate a fresh array (numpy expressions like `image != 0`, `~image`,
`image * 1` and function results allocate). -/
def halloc (hp : Heap) (v : ℕ → ℕ → ℚ) : Heap × ℕ :=
  (⟨hp.next + 1, Function.update hp.mem hp.next v⟩, hp.next)

/-- Overwrite the array at an existing reference (in-place assignment). -/
def hwrite (hp : Heap) (r : ℕ) (v : ℕ → ℕ → ℚ) : Heap :=
  ⟨hp.next, Function.update hp.mem r v⟩

/-- Read an array as booleans (nonzero test). -/
def qview (A : ℕ → ℕ → ℚ) : ℕ → ℕ → Bool := fun i j => decide (A i j ≠ 0)

/-- Store a boolean array as 0/1 values. -/
def encB (X : ℕ → ℕ → Bool) : ℕ → ℕ → ℚ := fun i j => if X i j then 1 else 0

/-- `features._distance` as a store transformer: it assigns
`image[tissue == 0] = border_value` into its image argument in place, reads
the tissue array, and allocates its result; it returns the updated store and
the result reference. -/
def distanceHeap (hp : Heap) (h w : ℕ) (rimg : ℕ) (sq : ℚ) (bv : Bool)
    (rtiss : ℕ) (visium : Bool) : Heap × ℕ :=
  let img := qview (hp.mem rimg)
  let tis := qview (hp.mem rtiss)
  let hp1 := hwrite hp rimg (encB (maskedInit img tis bv))
  halloc hp1 (distanceFn h w img sq bv tis visium).2

/-- `features._layer` as a store transformer: it masks its image argument in
place, then erodes it in place (`output=image`) until empty — the net store
effect is the final working image — and allocates the layer counts. -/
def layerHeap (hp : Heap) (h w : ℕ) (rimg : ℕ) (S : SElem) (bv : Bool)
    (rtiss : ℕ) (fuel : ℕ) : Heap × ℕ :=
  let img := qview (hp.mem rimg)
  let tis := qview (hp.mem rtiss)
  let X0 := maskedInit img tis bv
  let hp1 := hwrite hp rimg (encB X0)
  let res := layerLoop h w S bv fuel (fun i j => b2n (X0 i j), X0)
  let hp2 := hwrite hp1 rimg (encB res.2)
  halloc hp2 (fun i j => if tis i j then (res.1 i j : ℚ) else 0)

namespace Distance

/-- `Distance.minimum` as a store transformer (default-index path; `_isin`
also builds a fresh boolean array, so the index path has the same frame
behaviour).  `image = image != 0` and `~image` allocate fresh arrays, the two
`_distance` calls mutate only those, and `distances -= ...` mutates the first
result in place. -/
def minimumHeap (hp : Heap) (h w : ℕ) (rimg rtiss : ℕ) (sq : ℚ)
    (visium : Bool) : Heap × ℕ :=
  let b := qview (hp.mem rimg)
  let s1 := halloc hp (encB b)
  let s2 := halloc s1.1 (encB (fun i j => !(b i j)))
  let s3 := distanceHeap s2.1 h w s2.2 sq false rtiss visium
  let s4 := distanceHeap s3.1 h w s1.2 sq true rtiss visium
  let hp5 := hwrite s4.1 s3.2 (fun i j => s4.1.mem s3.2 i j - s4.1.mem s4.2 i j)
  (hp5, s3.2)

/-- `Distance.maximum` as a store transformer (border values swapped). -/
def maximumHeap (hp : Heap) (h w : ℕ) (rimg rtiss : ℕ) (sq : ℚ)
    (visium : Bool) : Heap × ℕ :=
  let b := qview (hp.mem rimg)
  let s1 := halloc hp (encB b)
  let s2 := halloc s1.1 (encB (fun i j => !(b i j)))
  let s3 := distanceHeap s2.1 h w s2.2 sq true rtiss visium
  let s4 := distanceHeap s3.1 h w s1.2 sq false rtiss visium
  let hp5 := hwrite s4.1 s3.2 (fun i j => s4.1.mem s3.2 i j - s4.1.mem s4.2 i j)
  (hp5, s3.2)

end Distance

namespace Layer

/-- `Layer.minimum` as a store transformer. -/
def minimumHeap (hp : Heap) (h w : ℕ) (rimg rtiss : ℕ) (S : SElem)
    (fuel : ℕ) : Heap × ℕ :=
  let b := qview (hp.mem rimg)
  let s1 := halloc hp (encB b)
  let s2 := halloc s1.1 (encB (fun i j => !(b i j)))
  let s3 := layerHeap s2.1 h w s2.2 S false rtiss fuel
  let s4 := layerHeap s3.1 h w s1.2 S true rtiss fuel
  let hp5 := hwrite s4.1 s3.2 (fun i j => s4.1.mem s3.2 i j - s4.1.mem s4.2 i j)
  (hp5, s3.2)

/-- `Layer.maximum` as a store transformer (border values swapped). -/
def maximumHeap (hp : Heap) (h w : ℕ) (rimg rtiss : ℕ) (S : SElem)
    (fuel : ℕ) : Heap × ℕ :=
  let b := qview (hp.mem rimg)
  let s1 := halloc hp (encB b)
  let s2 := halloc s1.1 (encB (fun i j => !(b i j)))
  let s3 := layerHeap s2.1 h w s2.2 S true rtiss fuel
  let s4 := layerHeap s3.1 h w s1.2 S false rtiss fuel
  let hp5 := hwrite s4.1 s3.2 (fun i j => s4.1.mem s3.2 i j - s4.1.mem s4.2 i j)
  (hp5, s3.2)

end Layer

/-! ## Helper lemmas -/

lemma le_foldr_max {l : List ℕ} {a : ℕ} (h : a ∈ l) (d : ℕ) : a ≤ l.foldr max d := by
  induction l with
  | nil => cases h
  | cons v vs ih =>
    rcases List.mem_cons.mp h with rfl | hm
    · exact le_max_left _ _
    · exact le_trans (ih hm) (le_max_right _ _)

lemma foldr_min_le {vs : List ℕ} {v a : ℕ} (h : a = v ∨ a ∈ vs) : vs.foldr min v ≤ a := by
  induction vs with
  | nil =>
    rcases h with rfl | h
    · exact le_refl _
    · cases h
  | cons u us ih =>
    rcases h with rfl | h
    · exact le_trans (min_le_right _ _) (ih (Or.inl rfl))
    · rcases List.mem_cons.mp h with rfl | hm
      · exact min_le_left _ _
      · exact le_trans (min_le_right _ _) (ih (Or.inr hm))

lemma listMinD_le {l : List ℕ} {a : ℕ} (h : a ∈ l) (d : ℕ) : listMinD l d ≤ a := by
  cases l with
  | nil => cases h
  | cons v vs =>
    rcases List.mem_cons.mp h with rfl | hm
    · exact foldr_min_le (Or.inl rfl)
    · exact foldr_min_le (Or.inr hm)

lemma getD_coe {m n : ℕ} (img : FImg m n) (i : Fin m) (j : Fin n) (d : ℕ) :
    getD img (i : ℤ) (j : ℤ) d = img i j := by
  have h : (0 : ℤ) ≤ (i : ℤ) ∧ (i : ℤ) < (m : ℤ) ∧ (0 : ℤ) ≤ (j : ℤ) ∧ (j : ℤ) < (n : ℤ) := by
    refine ⟨Int.natCast_nonneg _, ?_, Int.natCast_nonneg _, ?_⟩ <;> exact_mod_cast Fin.is_lt _
  rw [getD, dif_pos h]
  congr 1

lemma getOpt_coe {m n : ℕ} (img : FImg m n) (i : Fin m) (j : Fin n) :
    getOpt img (i : ℤ) (j : ℤ) = some (img i j) := by
  have h : (0 : ℤ) ≤ (i : ℤ) ∧ (i : ℤ) < (m : ℤ) ∧ (0 : ℤ) ≤ (j : ℤ) ∧ (j : ℤ) < (n : ℤ) := by
    refine ⟨Int.natCast_nonneg _, ?_, Int.natCast_nonneg _, ?_⟩ <;> exact_mod_cast Fin.is_lt _
  rw [getOpt, dif_pos h]
  congr 1

lemma self_le_dilation {m n : ℕ} (img : FImg m n) {E : SElem}
    (hE : ((0 : ℤ), (0 : ℤ)) ∈ E) (i : Fin m) (j : Fin n) :
    img i j ≤ dilation img E i j := by
  have hmem :
      getD img ((i : ℤ) + (0 : ℤ)) ((j : ℤ) + (0 : ℤ)) 0 ∈
        E.map (fun o => getD img ((i : ℤ) + o.1) ((j : ℤ) + o.2) 0) :=
    List.mem_map_of_mem _ hE
  have := le_foldr_max hmem 0
  rwa [add_zero, add_zero, getD_coe] at this

lemma erosion_le_self {m n : ℕ} (img : FImg m n) {E : SElem}
    (hE : ((0 : ℤ), (0 : ℤ)) ∈ E) (i : Fin m) (j : Fin n) :
    erosion img E i j ≤ img i j := by
  have hmem :
      img i j ∈ E.filterMap (fun o => getOpt img ((i : ℤ) + o.1) ((j : ℤ) + o.2)) :=
    List.mem_filterMap.mpr ⟨(0, 0), hE, by rw [add_zero, add_zero, getOpt_coe]⟩
  exact listMinD_le hmem _

lemma reconLoop_inv {m n : ℕ} (step : FImg m n → FImg m n) (P : FImg m n → Prop)
    (hstep : ∀ x, P x → P (step x)) :
    ∀ fuel x, P x → P (reconLoop step fuel x) := by
  intro fuel
  induction fuel with
  | zero => intro x hx; exact hx
  | succ f ih =>
    intro x hx
    by_cases h : step x = x
    · simpa [reconLoop, h] using hx
    · simpa [reconLoop, h] using ih _ (hstep x hx)

lemma propLoop_spec {m n : ℕ} (mask : FImg m n) (E : SElem) (t : FImg m n) :
    ∀ (fuel k : ℕ) (x : FImg m n), k ≤ fuel →
      (fun y => geodesic_dilation y mask E)^[k] x = t →
      ∃ N, propLoop mask E t fuel x = N ∧
        (fun y => geodesic_dilation y mask E)^[N] x = t ∧
        ∀ l, l < N → (fun y => geodesic_dilation y mask E)^[l] x ≠ t := by
  intro fuel
  induction fuel with
  | zero =>
    intro k x hk hit
    have hk0 : k = 0 := by omega
    subst hk0
    exact ⟨0, rfl, hit, fun l hl => absurd hl (by omega)⟩
  | succ f ih =>
    intro k x hk hit
    by_cases hx : x = t
    · exact ⟨0, by simp [propLoop, hx], by simpa using hx,
        fun l hl => absurd hl (by omega)⟩
    · have hk0 : k ≠ 0 := by
        rintro rfl
        exact hx (by simpa using hit)
      obtain ⟨k', rfl⟩ : ∃ k', k = k' + 1 := ⟨k - 1, by omega⟩
      rw [Function.iterate_succ_apply] at hit
      obtain ⟨N, hval, hNt, hmin⟩ := ih k' (geodesic_dilation x mask E) (by omega) hit
      refine ⟨N + 1, by simp [propLoop, hx, hval], ?_, ?_⟩
      · rw [Function.iterate_succ_apply]
        exact hNt
      · intro l hl
        cases l with
        | zero => simpa using hx
        | succ l' =>
          intro hcon
          rw [Function.iterate_succ_apply] at hcon
          exact hmin l' (by omega) hcon

/-! ## Claims C3, C6, C1 -/

/-- C3 counterexample: the geodesic bounds fail for arbitrary marker/mask
pairs of equal shape.  With a 1×1 marker 1 above a mask 0, geodesic dilation
drops below the marker; dually geodesic erosion of marker 0 under mask 1
rises above the marker; and even for marker = mask, a structuring element
without the origin offset breaks the lower bound. -/
theorem C3_geodesic_bound_counterexample :
    (¬ ∀ i j : Fin 1, (fun _ _ => (1 : ℕ)) i j ≤
        geodesic_dilation (m := 1) (n := 1) (fun _ _ => 1) (fun _ _ => 0)
          [((0 : ℤ), (0 : ℤ))] i j) ∧
    (¬ ∀ i j : Fin 1, geodesic_erosion (m := 1) (n := 1) (fun _ _ => 0) (fun _ _ => 1)
          [((0 : ℤ), (0 : ℤ))] i j ≤ (fun _ _ => (0 : ℕ)) i j) ∧
    (¬ ∀ (i : Fin 1) (j : Fin 2),
        (fun _ (b : Fin 2) => if b = 0 then (1 : ℕ) else 0) i j ≤
          geodesic_dilation (m := 1) (n := 2)
            (fun _ b => if b = 0 then 1 else 0) (fun _ b => if b = 0 then 1 else 0)
            [((0 : ℤ), (1 : ℤ))] i j) := by
  refine ⟨?_, ?_, ?_⟩ <;> decide

/-- C3 amended: for marker ≤ mask pointwise and a structuring element
containing the origin offset, `marker ≤ geodesic_dilation(marker, mask, E) ≤
mask` pointwise; dually, for mask ≤ marker, `mask ≤
geodesic_erosion(marker, mask, E) ≤ marker` pointwise. -/
theorem C3_geodesic_bound_amended :
    (∀ (m n : ℕ) (marker mask : FImg m n) (E : SElem), ((0 : ℤ), (0 : ℤ)) ∈ E →
      (∀ i j, marker i j ≤ mask i j) →
      ∀ i j, marker i j ≤ geodesic_dilation marker mask E i j ∧
        geodesic_dilation marker mask E i j ≤ mask i j) ∧
    (∀ (m n : ℕ) (marker mask : FImg m n) (E : SElem), ((0 : ℤ), (0 : ℤ)) ∈ E →
      (∀ i j, mask i j ≤ marker i j) →
      ∀ i j, mask i j ≤ geodesic_erosion marker mask E i j ∧
        geodesic_erosion marker mask E i j ≤ marker i j) := by
  constructor
  · intro m n marker mask E hE hle i j
    exact ⟨le_min (hle i j) (self_le_dilation marker hE i j), min_le_left _ _⟩
  · intro m n marker mask E hE hge i j
    exact ⟨le_max_left _ _, max_le (hge i j) (erosion_le_self marker hE i j)⟩

theorem C3_geodesic_bound_witness :
    ((fun _ _ => (1 : ℕ)) (0 : Fin 1) (0 : Fin 1) ≤
        geodesic_dilation (m := 1) (n := 1) (fun _ _ => 1) (fun _ _ => 1) crossSE 0 0 ∧
      geodesic_dilation (m := 1) (n := 1) (fun _ _ => 1) (fun _ _ => 1) crossSE 0 0 ≤
        (fun _ _ => (1 : ℕ)) (0 : Fin 1) (0 : Fin 1)) ∧
    ((fun _ _ => (1 : ℕ)) (0 : Fin 1) (0 : Fin 1) ≤
        geodesic_erosion (m := 1) (n := 1) (fun _ _ => 1) (fun _ _ => 1) crossSE 0 0 ∧
      geodesic_erosion (m := 1) (n := 1) (fun _ _ => 1) (fun _ _ => 1) crossSE 0 0 ≤
        (fun _ _ => (1 : ℕ)) (0 : Fin 1) (0 : Fin 1)) :=
  ⟨C3_geodesic_bound_amended.1 1 1 (fun _ _ => 1) (fun _ _ => 1) crossSE (by decide)
      (fun _ _ => le_refl _) 0 0,
    C3_geodesic_bound_amended.2 1 1 (fun _ _ => 1) (fun _ _ => 1) crossSE (by decide)
      (fun _ _ => le_refl _) 0 0⟩

/-- C6: whenever `reconstruction_by_dilation` returns a result it lies between
its marker and its mask pointwise, and whenever `reconstruction_by_erosion`
returns a result it lies between its mask and its marker pointwise (skimage
rejects marker/mask pairs violating the required ordering, modelled by the
`none` case). -/
theorem C6_reconstruction_bounds {m n : ℕ} (marker mask marker2 mask2 : FImg m n)
    (E E2 : SElem) (fuel fuel2 : ℕ) :
    (∀ r, reconstruction_by_dilation marker mask E fuel = some r →
      ∀ i j, marker i j ≤ r i j ∧ r i j ≤ mask i j) ∧
    (∀ r, reconstruction_by_erosion marker2 mask2 E2 fuel2 = some r →
      ∀ i j, mask2 i j ≤ r i j ∧ r i j ≤ marker2 i j) := by
  constructor
  · intro r hr
    rw [reconstruction_by_dilation] at hr
    split_ifs at hr with hle
    · have hr' := Option.some.inj hr
      subst hr'
      exact reconLoop_inv (reconStepD mask E)
        (fun x => ∀ i j, marker i j ≤ x i j ∧ x i j ≤ mask i j)
        (fun x hx i j =>
          ⟨le_min (hle i j) (le_trans (hx i j).1 (le_max_left _ _)), min_le_left _ _⟩)
        fuel marker (fun i j => ⟨le_refl _, hle i j⟩)
  · intro r hr
    rw [reconstruction_by_erosion] at hr
    split_ifs at hr with hge
    · have hr' := Option.some.inj hr
      subst hr'
      exact reconLoop_inv (reconStepE mask2 E2)
        (fun x => ∀ i j, mask2 i j ≤ x i j ∧ x i j ≤ marker2 i j)
        (fun x hx i j =>
          ⟨le_max_left _ _,
            max_le (hge i j) (le_trans (min_le_left _ _) (hx i j).2)⟩)
        fuel2 marker2 (fun i j => ⟨hge i j, le_refl _⟩)

theorem C6_reconstruction_bounds_witness :
    ((fun _ _ => (0 : ℕ)) (0 : Fin 1) (0 : Fin 1) ≤
        reconLoop (reconStepD (m := 1) (n := 1) (fun _ _ => 0) crossSE) 1 (fun _ _ => 0) 0 0 ∧
      reconLoop (reconStepD (m := 1) (n := 1) (fun _ _ => 0) crossSE) 1 (fun _ _ => 0) 0 0 ≤
        (fun _ _ => (0 : ℕ)) (0 : Fin 1) (0 : Fin 1)) ∧
    ((fun _ _ => (0 : ℕ)) (0 : Fin 1) (0 : Fin 1) ≤
        reconLoop (reconStepE (m := 1) (n := 1) (fun _ _ => 0) crossSE) 1 (fun _ _ => 0) 0 0 ∧
      reconLoop (reconStepE (m := 1) (n := 1) (fun _ _ => 0) crossSE) 1 (fun _ _ => 0) 0 0 ≤
        (fun _ _ => (0 : ℕ)) (0 : Fin 1) (0 : Fin 1)) := by
  have h := C6_reconstruction_bounds (m := 1) (n := 1)
    (fun _ _ => 0) (fun _ _ => 0) (fun _ _ => 0) (fun _ _ => 0) crossSE crossSE 1 1
  constructor
  · exact h.1 _ (by rw [reconstruction_by_dilation, if_pos (fun i j => le_refl _)]) 0 0
  · exact h.2 _ (by rw [reconstruction_by_erosion, if_pos (fun i j => le_refl _)]) 0 0

/-- C1: for a foreground pixel `(i, j)` of the image, provided the geodesic
iteration from the one-pixel seed reaches the reconstruction target within the
loop fuel, `propagation_function` records exactly the minimum number of
geodesic-dilation steps needed for the seed to equal the
reconstruction-by-dilation of that seed against the image; the value is 0 iff
the reconstruction already equals the seed; and background pixels stay 0. -/
theorem C1_propagation_depth {m n : ℕ} (img : FImg m n) (E : SElem)
    (fuelR fuelW : ℕ) (i : Fin m) (j : Fin n)
    (hfg : img i j ≠ 0)
    (hterm : ∃ k, k ≤ fuelW ∧
      (fun y => geodesic_dilation y img E)^[k] (seedAt i j) =
        reconLoop (reconStepD img E) fuelR (seedAt i j)) :
    reconstruction_by_dilation (seedAt i j) img E fuelR =
      some (reconLoop (reconStepD img E) fuelR (seedAt i j)) ∧
    (∃ N, propagation_function img E fuelR fuelW i j = N ∧
      (fun y => geodesic_dilation y img E)^[N] (seedAt i j) =
        reconLoop (reconStepD img E) fuelR (seedAt i j) ∧
      ∀ l, l < N → (fun y => geodesic_dilation y img E)^[l] (seedAt i j) ≠
        reconLoop (reconStepD img E) fuelR (seedAt i j)) ∧
    (propagation_function img E fuelR fuelW i j = 0 ↔
      reconLoop (reconStepD img E) fuelR (seedAt i j) = seedAt i j) ∧
    (∀ a b, img a b = 0 → propagation_function img E fuelR fuelW a b = 0) := by
  have hle : ∀ a b, seedAt i j a b ≤ img a b := by
    intro a b
    rw [seedAt]
    split_ifs with hab
    · obtain ⟨rfl, rfl⟩ := hab
      exact Nat.one_le_iff_ne_zero.mpr hfg
    · exact Nat.zero_le _
  have hrecon : reconstruction_by_dilation (seedAt i j) img E fuelR =
      some (reconLoop (reconStepD img E) fuelR (seedAt i j)) := by
    rw [reconstruction_by_dilation, if_pos hle]
  have hpv : propagation_function img E fuelR fuelW i j =
      propLoop img E (reconLoop (reconStepD img E) fuelR (seedAt i j)) fuelW
        (seedAt i j) := by
    rw [propagation_function, if_pos hfg, hrecon]
  obtain ⟨k, hk, hit⟩ := hterm
  obtain ⟨N, hval, hNt, hmin⟩ := propLoop_spec img E _ fuelW k (seedAt i j) hk hit
  refine ⟨hrecon, ⟨N, by rw [hpv, hval], hNt, hmin⟩, ?_, ?_⟩
  · constructor
    · intro h0
      have hN0 : N = 0 := by rw [hpv, hval] at h0; exact h0
      subst hN0
      simpa using hNt.symm
    · intro hts
      by_contra hne
      have hNpos : 0 < N := by
        rcases Nat.eq_zero_or_pos N with h | h
        · exact absurd (by rw [hpv, hval, h]) hne
        · exact h
      exact hmin 0 hNpos (by simpa using hts.symm)
  · intro a b h0
    rw [propagation_function, if_neg (by simp [h0])]

theorem C1_propagation_depth_witness :
    reconstruction_by_dilation (m := 1) (n := 2) (seedAt 0 0) (fun _ _ => 1) crossSE 4 =
      some (reconLoop (reconStepD (fun _ _ => 1) crossSE) 4 (seedAt 0 0)) :=
  (C1_propagation_depth (m := 1) (n := 2) (fun _ _ => 1) crossSE 4 4 0 0
    (by decide) ⟨1, by decide, by decide⟩).1

/-! ## Claim C9 -/

/-- C9 counterexample: a 2×2 marker with a 1×2 mask have differing shapes, yet
both `geodesic_erosion` and `geodesic_dilation` return a (broadcast) result —
`numpy.maximum`/`numpy.minimum` broadcast instead of failing. -/
theorem C9_shape_mismatch_counterexample :
    (geodesic_erosionN ⟨2, 2, fun _ _ => 1⟩ ⟨1, 2, fun _ _ => 0⟩
        [((0 : ℤ), (0 : ℤ))]).isSome = true ∧
    (geodesic_dilationN ⟨2, 2, fun _ _ => 1⟩ ⟨1, 2, fun _ _ => 0⟩
        [((0 : ℤ), (0 : ℤ))]).isSome = true ∧
    ((2, 2) : ℕ × ℕ) ≠ (1, 2) := by
  refine ⟨?_, ?_, ?_⟩ <;> decide

/-- C9 amended: `geodesic_erosion` and `geodesic_dilation` fail exactly when
the mask and marker shapes are not numpy-broadcastable (some axis pair is
neither equal nor 1); differing but broadcastable shapes yield a result. -/
theorem C9_shape_mismatch_amended (marker mask : NArr) (E : SElem) :
    (geodesic_erosionN marker mask E = none ∧ geodesic_dilationN marker mask E = none) ↔
      bshape mask.r marker.r = none ∨ bshape mask.c marker.c = none := by
  have her : (erosionN marker E).r = marker.r := rfl
  have hec : (erosionN marker E).c = marker.c := rfl
  have hdr : (dilationN marker E).r = marker.r := rfl
  have hdc : (dilationN marker E).c = marker.c := rfl
  rw [geodesic_erosionN, geodesic_dilationN, broadcastWith, broadcastWith,
    her, hec, hdr, hdc]
  cases bshape mask.r marker.r <;> cases bshape mask.c marker.c <;> simp

/-! ## Lemmas about `bErode`, `anyImg` and `layerLoop` -/

lemma anyImg_eq_false_iff {h w : ℕ} {X : ℕ → ℕ → Bool} :
    anyImg h w X = false ↔ ∀ i, i < h → ∀ j, j < w → X i j = false := by
  simp [anyImg, List.any_eq_true, List.mem_range]

lemma bErode_origin {h w : ℕ} {S : SElem} {bv : Bool} {X : ℕ → ℕ → Bool} {i j : ℕ}
    (horig : ((0 : ℤ), (0 : ℤ)) ∈ S) (hT : bErode h w S bv X i j = true) :
    i < h ∧ j < w ∧ X i j = true := by
  rw [bErode] at hT
  simp only [Bool.and_eq_true, decide_eq_true_eq, List.all_eq_true] at hT
  obtain ⟨⟨hi, hj⟩, hall⟩ := hT
  have hr := hall (0, 0) horig
  rw [readB] at hr
  split_ifs at hr with hin
  · refine ⟨hi, hj, ?_⟩
    have h1 : ((i : ℤ) + (0 : ℤ)).toNat = i := by omega
    have h2 : ((j : ℤ) + (0 : ℤ)).toNat = j := by omega
    rwa [h1, h2] at hr
  · exfalso
    apply hin
    refine ⟨by omega, by omega, by omega, by omega⟩

lemma bErode_offset {h w : ℕ} {S : SElem} {X : ℕ → ℕ → Bool} {i j : ℕ} {a b : ℤ}
    (hmem : (a, b) ∈ S) (hT : bErode h w S false X i j = true) :
    i < h ∧ j < w ∧ ∃ qi qj : ℕ, qi < h ∧ qj < w ∧ X qi qj = true ∧
      (qi : ℤ) = (i : ℤ) + a ∧ (qj : ℤ) = (j : ℤ) + b := by
  rw [bErode] at hT
  simp only [Bool.and_eq_true, decide_eq_true_eq, List.all_eq_true] at hT
  obtain ⟨⟨hi, hj⟩, hall⟩ := hT
  have hr := hall (a, b) hmem
  rw [readB] at hr
  split_ifs at hr with hin
  exact ⟨hi, hj, ((i : ℤ) + a).toNat, ((j : ℤ) + b).toNat, by omega, by omega, hr,
    by omega, by omega⟩

lemma iter_false_of_empty {h w : ℕ} {S : SElem} {bv : Bool} {X : ℕ → ℕ → Bool}
    (horig : ((0 : ℤ), (0 : ℤ)) ∈ S) (hempty : anyImg h w X = false) :
    ∀ (k i j : ℕ), i < h → j < w → (bErode h w S bv)^[k] X i j = false := by
  intro k
  induction k with
  | zero =>
    intro i j hi hj
    exact anyImg_eq_false_iff.mp hempty i hi j hj
  | succ k ih =>
    intro i j hi hj
    rw [Function.iterate_succ_apply']
    by_contra hT
    have hT' : bErode h w S bv ((bErode h w S bv)^[k] X) i j = true := by
      revert hT
      cases bErode h w S bv ((bErode h w S bv)^[k] X) i j <;> simp
    obtain ⟨_, _, hX⟩ := bErode_origin horig hT'
    rw [ih i j hi hj] at hX
    cases hX

lemma iter_antitone {h w : ℕ} {S : SElem} {bv : Bool} {X : ℕ → ℕ → Bool} {i j : ℕ}
    (horig : ((0 : ℤ), (0 : ℤ)) ∈ S) :
    ∀ {k l : ℕ}, k ≤ l → (bErode h w S bv)^[l] X i j = true →
      (bErode h w S bv)^[k] X i j = true := by
  intro k l
  induction l with
  | zero =>
    intro hk hT
    have hk0 : k = 0 := by omega
    subst hk0
    exact hT
  | succ l ih =>
    intro hk hT
    rcases Nat.eq_or_lt_of_le hk with rfl | hlt
    · exact hT
    · rw [Function.iterate_succ_apply'] at hT
      exact ih (by omega) (bErode_origin horig hT).2.2

lemma layerLoop_sum {h w : ℕ} {S : SElem} {bv : Bool}
    (horig : ((0 : ℤ), (0 : ℤ)) ∈ S) :
    ∀ (K fuel : ℕ) (L : ℕ → ℕ → ℕ) (X : ℕ → ℕ → Bool),
      anyImg h w ((bErode h w S bv)^[K] X) = false → K ≤ fuel →
      ∀ i j, i < h → j < w →
        (layerLoop h w S bv fuel (L, X)).1 i j =
          L i j + ∑ l ∈ Finset.range K, b2n ((bErode h w S bv)^[l + 1] X i j) := by
  intro K
  induction K with
  | zero =>
    intro fuel L X hK _ i j hi hj
    rw [Function.iterate_zero_apply] at hK
    cases fuel with
    | zero => simp [layerLoop]
    | succ f => simp [layerLoop, hK]
  | succ K ih =>
    intro fuel L X hK hle i j hi hj
    obtain ⟨f, rfl⟩ : ∃ f, fuel = f + 1 := ⟨fuel - 1, by omega⟩
    by_cases hany : anyImg h w X = true
    · have hK' : anyImg h w ((bErode h w S bv)^[K] (bErode h w S bv X)) = false := by
        rw [← Function.iterate_succ_apply]
        exact hK
      have hstep := ih f (fun p q => L p q + b2n (bErode h w S bv X p q))
        (bErode h w S bv X) hK' (by omega) i j hi hj
      have hloop : layerLoop h w S bv (f + 1) (L, X) =
          layerLoop h w S bv f
            (fun p q => L p q + b2n (bErode h w S bv X p q), bErode h w S bv X) := by
        simp [layerLoop, hany]
      rw [hloop, hstep, Finset.sum_range_succ']
      simp only [Function.iterate_succ_apply, Function.iterate_zero_apply, Nat.zero_add,
        Function.iterate_one]
      ring
    · -- the working image is already empty: every later iterate is in-shape false
      have hempty : anyImg h w X = false := by
        revert hany
        cases anyImg h w X <;> simp
      have hloop : layerLoop h w S bv (f + 1) (L, X) = (L, X) := by
        simp [layerLoop, hempty]
      rw [hloop]
      have hsum : ∀ l ∈ Finset.range (K + 1),
          b2n ((bErode h w S bv)^[l + 1] X i j) = 0 := by
        intro l _
        rw [iter_false_of_empty horig hempty (l + 1) i j hi hj]
        rfl
      rw [Finset.sum_congr rfl hsum]
      simp

/-! ## Claim C2 -/

/-- C2 counterexample: with the structuring element consisting of the single
offset `(1, 0)` (no origin), `_layer` on a 2×1 image whose only foreground
pixel is the bottom one assigns layer value 1 to the top pixel — a pixel that
is background at the start — contradicting "pixels that are background at the
start contribute 0". -/
theorem C2_layer_survival_counterexample :
    layerFn 2 1 (fun i j => decide (i = 1 ∧ j = 0)) [((1 : ℤ), (0 : ℤ))] false
      (fun _ _ => true) 5 0 0 = 1 ∧
    maskedInit (fun i j => decide (i = 1 ∧ j = 0)) (fun _ _ => true) false 0 0 = false := by
  constructor <;> decide

/-- C2 amended: provided the structuring element contains its origin (true of
the scipy default), each in-shape tissue-true pixel's accumulated `_layer`
value is the least `N` such that the pixel is no longer foreground after `N`
erosions of the masked image (counting the initial image as iterate 0, i.e.
the number of loop iterations through which the pixel stays foreground), and
pixels background at the start get 0.  Hypothesis: the loop empties the
working image within the fuel. -/
theorem C2_layer_survival {h w : ℕ} (img tissue : ℕ → ℕ → Bool) (S : SElem)
    (bv : Bool) (K fuel : ℕ)
    (horig : ((0 : ℤ), (0 : ℤ)) ∈ S)
    (hterm : anyImg h w ((bErode h w S bv)^[K] (maskedInit img tissue bv)) = false)
    (hK : K ≤ fuel) (i j : ℕ) (hi : i < h) (hj : j < w) (ht : tissue i j = true) :
    (maskedInit img tissue bv i j = false → layerFn h w img S bv tissue fuel i j = 0) ∧
    ∃ N, layerFn h w img S bv tissue fuel i j = N ∧
      (bErode h w S bv)^[N] (maskedInit img tissue bv) i j = false ∧
      ∀ l, l < N → (bErode h w S bv)^[l] (maskedInit img tissue bv) i j = true := by
  set X0 := maskedInit img tissue bv with hX0
  have huK : (bErode h w S bv)^[K] X0 i j = false :=
    anyImg_eq_false_iff.mp hterm i hi j hj
  have hex : ∃ l, (bErode h w S bv)^[l] X0 i j = false := ⟨K, huK⟩
  set N := Nat.find hex with hN
  have hNfalse : (bErode h w S bv)^[N] X0 i j = false := Nat.find_spec hex
  have hNmin : ∀ l, l < N → (bErode h w S bv)^[l] X0 i j = true := by
    intro l hl
    have := Nat.find_min hex hl
    revert this
    cases (bErode h w S bv)^[l] X0 i j <;> simp
  have hNK : N ≤ K := Nat.find_min' hex huK
  have hval : layerFn h w img S bv tissue fuel i j =
      b2n (X0 i j) + ∑ l ∈ Finset.range K, b2n ((bErode h w S bv)^[l + 1] X0 i j) := by
    have hloop := layerLoop_sum horig K fuel (fun p q => b2n (X0 p q)) X0 hterm hK i j hi hj
    simp only [layerFn, ← hX0, ht, if_true]
    exact hloop
  have hsum : layerFn h w img S bv tissue fuel i j =
      ∑ l ∈ Finset.range (K + 1), b2n ((bErode h w S bv)^[l] X0 i j) := by
    rw [hval, Finset.sum_range_succ']
    simp only [Function.iterate_zero_apply]
    ring
  have hind : ∀ l, b2n ((bErode h w S bv)^[l] X0 i j) = if l < N then 1 else 0 := by
    intro l
    by_cases hl : l < N
    · rw [hNmin l hl, if_pos hl]
      rfl
    · have hge : N ≤ l := by omega
      have : (bErode h w S bv)^[l] X0 i j = false := by
        by_contra hT
        have hT' : (bErode h w S bv)^[l] X0 i j = true := by
          revert hT
          cases (bErode h w S bv)^[l] X0 i j <;> simp
        have := iter_antitone horig hge hT'
        rw [hNfalse] at this
        cases this
      rw [this, if_neg hl]
      rfl
  have hvalN : layerFn h w img S bv tissue fuel i j = N := by
    rw [hsum, Finset.sum_congr rfl (fun l _ => hind l), Finset.sum_boole]
    have hfilter : (Finset.range (K + 1)).filter (fun l => l < N) = Finset.range N := by
      ext x
      simp only [Finset.mem_filter, Finset.mem_range]
      omega
    rw [hfilter, Finset.card_range]
    exact Nat.cast_id N
  refine ⟨?_, N, hvalN, hNfalse, hNmin⟩
  intro hbg
  have hN0 : N = 0 := by
    have : N ≤ 0 := Nat.find_min' hex (by rw [Function.iterate_zero_apply]; exact hbg)
    omega
  rw [hvalN, hN0]

theorem C2_layer_survival_witness :
    (maskedInit (fun _ _ => true) (fun _ _ => true) false 0 0 = false →
      layerFn 1 1 (fun _ _ => true) crossSE false (fun _ _ => true) 3 0 0 = 0) ∧
    ∃ N, layerFn 1 1 (fun _ _ => true) crossSE false (fun _ _ => true) 3 0 0 = N ∧
      (bErode 1 1 crossSE false)^[N]
        (maskedInit (fun _ _ => true) (fun _ _ => true) false) 0 0 = false ∧
      ∀ l, l < N → (bErode 1 1 crossSE false)^[l]
        (maskedInit (fun _ _ => true) (fun _ _ => true) false) 0 0 = true :=
  C2_layer_survival (fun _ _ => true) (fun _ _ => true) crossSE false 1 3
    (by decide) (by decide) (by decide) 0 0 (by decide) (by decide) (by decide)

/-! ## Claim C4 -/

lemma phi_bound {h w : ℕ} (a b : ℤ) {i j : ℕ} (hi : i < h) (hj : j < w) :
    -(|a| * (h : ℤ) + |b| * (w : ℤ)) ≤ a * (i : ℤ) + b * (j : ℤ) ∧
      a * (i : ℤ) + b * (j : ℤ) ≤ |a| * (h : ℤ) + |b| * (w : ℤ) := by
  have hia : (i : ℤ) ≤ (h : ℤ) := by exact_mod_cast hi.le
  have hjb : (j : ℤ) ≤ (w : ℤ) := by exact_mod_cast hj.le
  have h0i : (0 : ℤ) ≤ (i : ℤ) := Int.natCast_nonneg _
  have h0j : (0 : ℤ) ≤ (j : ℤ) := Int.natCast_nonneg _
  have h1 : a * (i : ℤ) ≤ |a| * (i : ℤ) :=
    mul_le_mul_of_nonneg_right (le_abs_self a) h0i
  have h2 : |a| * (i : ℤ) ≤ |a| * (h : ℤ) :=
    mul_le_mul_of_nonneg_left hia (abs_nonneg a)
  have h3 : b * (j : ℤ) ≤ |b| * (j : ℤ) :=
    mul_le_mul_of_nonneg_right (le_abs_self b) h0j
  have h4 : |b| * (j : ℤ) ≤ |b| * (w : ℤ) :=
    mul_le_mul_of_nonneg_left hjb (abs_nonneg b)
  have h5 : -(|a| * (i : ℤ)) ≤ a * (i : ℤ) := by
    have := mul_le_mul_of_nonneg_right (neg_abs_le a) h0i
    linarith
  have h6 : -(|b| * (j : ℤ)) ≤ b * (j : ℤ) := by
    have := mul_le_mul_of_nonneg_right (neg_abs_le b) h0j
    linarith
  constructor <;> linarith

lemma erode_term_aux {h w : ℕ} {S : SElem} {a b : ℤ}
    (hmem : (a, b) ∈ S) (hab : a ≠ 0 ∨ b ≠ 0) :
    ∀ (t : ℕ) (X : ℕ → ℕ → Bool),
      (∀ i j : ℕ, i < h → j < w → X i j = true →
        a * (i : ℤ) + b * (j : ℤ) + (|a| * (h : ℤ) + |b| * (w : ℤ)) < (t : ℤ)) →
      ∃ k, anyImg h w ((bErode h w S false)^[k] X) = false := by
  have hc : 1 ≤ a ^ 2 + b ^ 2 := by
    rcases hab with ha | hb
    · nlinarith [pow_two_pos_of_ne_zero ha, sq_nonneg b]
    · nlinarith [pow_two_pos_of_ne_zero hb, sq_nonneg a]
  intro t
  induction t with
  | zero =>
    intro X hX
    refine ⟨0, ?_⟩
    rw [Function.iterate_zero_apply, anyImg_eq_false_iff]
    intro i hi j hj
    by_contra hT
    have hT' : X i j = true := by
      revert hT
      cases X i j <;> simp
    have hlt := hX i j hi hj hT'
    have hlb := (phi_bound a b hi hj).1
    simp only [Nat.cast_zero] at hlt
    linarith
  | succ t ih =>
    intro X hX
    have hX' : ∀ i j : ℕ, i < h → j < w → bErode h w S false X i j = true →
        a * (i : ℤ) + b * (j : ℤ) + (|a| * (h : ℤ) + |b| * (w : ℤ)) < (t : ℤ) := by
      intro i j hi hj hT
      obtain ⟨_, _, qi, qj, hqi, hqj, hXq, hqa, hqb⟩ := bErode_offset hmem hT
      have hlt := hX qi qj hqi hqj hXq
      have hphi : a * (qi : ℤ) + b * (qj : ℤ) =
          a * (i : ℤ) + b * (j : ℤ) + (a ^ 2 + b ^ 2) := by
        rw [hqa, hqb]
        ring
      have hcast : ((t + 1 : ℕ) : ℤ) = (t : ℤ) + 1 := by push_cast; ring
      rw [hcast] at hlt
      linarith
    obtain ⟨k, hk⟩ := ih (bErode h w S false X) hX'
    exact ⟨k + 1, by rw [Function.iterate_succ_apply]; exact hk⟩

/-- C4 counterexample: the erosion loop of `_layer` need not terminate.  With
border value 1 on an all-foreground 1×1 image (the working image of the
inside-anchored `_layer` call of `Layer.maximum` on an all-background input),
the default cross erosion fixes the image, so no iterate is ever empty; the
same happens with border value 0 for a structuring element containing only
the origin. -/
theorem C4_layer_termination_counterexample :
    (¬ ∃ k, anyImg 1 1 ((bErode 1 1 crossSE true)^[k]
        (maskedInit (fun _ _ => true) (fun _ _ => true) true)) = false) ∧
    (¬ ∃ k, anyImg 1 1 ((bErode 1 1 [((0 : ℤ), (0 : ℤ))] false)^[k]
        (maskedInit (fun _ _ => true) (fun _ _ => true) false)) = false) := by
  have hfix : ∀ (S : SElem) (bv : Bool),
      (∀ Y : ℕ → ℕ → Bool, Y 0 0 = true → bErode 1 1 S bv Y 0 0 = true) →
      ∀ k, ((bErode 1 1 S bv)^[k] (fun _ _ => true) : ℕ → ℕ → Bool) 0 0 = true := by
    intro S bv hstep k
    induction k with
    | zero => rfl
    | succ k ih =>
      rw [Function.iterate_succ_apply']
      exact hstep _ ih
  have hmask : maskedInit (fun _ _ => true) (fun _ _ => true) true =
      (fun _ _ => true : ℕ → ℕ → Bool) := rfl
  have hmask0 : maskedInit (fun _ _ => true) (fun _ _ => true) false =
      (fun _ _ => true : ℕ → ℕ → Bool) := rfl
  constructor
  · rintro ⟨k, hk⟩
    rw [hmask, anyImg_eq_false_iff] at hk
    have hT := hfix crossSE true ?_ k
    · rw [hk 0 (by omega) 0 (by omega)] at hT
      cases hT
    · intro Y hY
      rw [bErode]
      simp only [crossSE, List.all_cons, List.all_nil, readB]
      norm_num [hY]
  · rintro ⟨k, hk⟩
    rw [hmask0, anyImg_eq_false_iff] at hk
    have hT := hfix [((0 : ℤ), (0 : ℤ))] false ?_ k
    · rw [hk 0 (by omega) 0 (by omega)] at hT
      cases hT
    · intro Y hY
      rw [bErode]
      simp only [List.all_cons, List.all_nil, readB]
      norm_num [hY]

/-- C4 amended: for border value 0 and any structuring element containing a
nonzero offset, the erosion loop of `_layer` terminates on every image and
tissue mask: some iterate of the masked working image has no in-shape
foreground pixel.  (With border value 1, or an origin-only element, the loop
can run forever, see the counterexample.) -/
theorem C4_layer_termination {h w : ℕ} (img tissue : ℕ → ℕ → Bool) (S : SElem)
    (a b : ℤ) (hmem : (a, b) ∈ S) (hab : a ≠ 0 ∨ b ≠ 0) :
    ∃ k, anyImg h w ((bErode h w S false)^[k] (maskedInit img tissue false)) = false := by
  apply erode_term_aux hmem hab
    ((2 * (|a| * (h : ℤ) + |b| * (w : ℤ))).toNat + 1)
  intro i j hi hj _
  have hub := (phi_bound a b hi hj).2
  have hB0 : (0 : ℤ) ≤ |a| * (h : ℤ) + |b| * (w : ℤ) := by
    have := abs_nonneg a
    have := abs_nonneg b
    have : (0:ℤ) ≤ |a| * (h : ℤ) := mul_nonneg (abs_nonneg a) (Int.natCast_nonneg h)
    have : (0:ℤ) ≤ |b| * (w : ℤ) := mul_nonneg (abs_nonneg b) (Int.natCast_nonneg w)
    linarith
  have hcast : (((2 * (|a| * (h : ℤ) + |b| * (w : ℤ))).toNat + 1 : ℕ) : ℤ) =
      2 * (|a| * (h : ℤ) + |b| * (w : ℤ)) + 1 := by
    push_cast
    rw [Int.toNat_of_nonneg (by linarith)]
  rw [hcast]
  linarith

theorem C4_layer_termination_witness :
    ∃ k, anyImg 1 1 ((bErode 1 1 crossSE false)^[k]
      (maskedInit (fun _ _ => true) (fun _ _ => true) false)) = false :=
  C4_layer_termination (fun _ _ => true) (fun _ _ => true) crossSE 1 0
    (by decide) (by decide)

/-! ## Claim C5 -/

lemma distanceFn_tissue_false {h w : ℕ} {img : ℕ → ℕ → Bool} {sq : ℚ} {bv : Bool}
    {tissue : ℕ → ℕ → Bool} {visium : Bool} {i j : ℕ} (ht : tissue i j = false) :
    (distanceFn h w img sq bv tissue visium).2 i j = 0 := by
  cases visium <;> simp [distanceFn, ht]

lemma layerFn_tissue_false {h w : ℕ} {img : ℕ → ℕ → Bool} {S : SElem} {bv : Bool}
    {tissue : ℕ → ℕ → Bool} {fuel : ℕ} {i j : ℕ} (ht : tissue i j = false) :
    layerFn h w img S bv tissue fuel i j = 0 := by
  simp [layerFn, ht]

/-- C5: with a tissue mask, every tissue-false pixel reads back as exactly 0
in the outputs of `Distance.minimum`, `Distance.maximum`, `Layer.minimum` and
`Layer.maximum`, regardless of the image values (each `_distance`/`_layer`
call zeroes tissue-false pixels after its transform, and the combining
subtraction preserves the zero). -/
theorem C5_tissue_masking (h w : ℕ) (img : ℕ → ℕ → ℕ) (index : Option (List ℕ))
    (tissue : ℕ → ℕ → Bool) (sq : ℚ) (visium : Bool) (S : SElem) (fuel : ℕ)
    (i j : ℕ) (ht : tissue i j = false) :
    (Distance.minimum h w img index tissue sq visium).2 i j = 0 ∧
    (Distance.maximum h w img index tissue sq visium).2 i j = 0 ∧
    Layer.minimum h w img index tissue S fuel i j = 0 ∧
    Layer.maximum h w img index tissue S fuel i j = 0 := by
  refine ⟨?_, ?_, ?_, ?_⟩
  · show (distanceFn h w _ sq false tissue visium).2 i j -
      (distanceFn h w _ sq true tissue visium).2 i j = 0
    rw [distanceFn_tissue_false ht, distanceFn_tissue_false ht, sub_zero]
  · show (distanceFn h w _ sq true tissue visium).2 i j -
      (distanceFn h w _ sq false tissue visium).2 i j = 0
    rw [distanceFn_tissue_false ht, distanceFn_tissue_false ht, sub_zero]
  · show ((layerFn h w _ S false tissue fuel i j : ℤ) -
      (layerFn h w _ S true tissue fuel i j : ℤ)) = 0
    rw [layerFn_tissue_false ht, layerFn_tissue_false ht]
    simp
  · show ((layerFn h w _ S true tissue fuel i j : ℤ) -
      (layerFn h w _ S false tissue fuel i j : ℤ)) = 0
    rw [layerFn_tissue_false ht, layerFn_tissue_false ht]
    simp

theorem C5_tissue_masking_witness :
    (Distance.minimum 1 1 (fun _ _ => 1) none (fun _ _ => false) 1 false).2 0 0 = 0 ∧
    (Distance.maximum 1 1 (fun _ _ => 1) none (fun _ _ => false) 1 false).2 0 0 = 0 ∧
    Layer.minimum 1 1 (fun _ _ => 1) none (fun _ _ => false) crossSE 3 0 0 = 0 ∧
    Layer.maximum 1 1 (fun _ _ => 1) none (fun _ _ => false) crossSE 3 0 0 = 0 :=
  C5_tissue_masking 1 1 (fun _ _ => 1) none (fun _ _ => false) 1 false crossSE 3 0 0 rfl

/-! ## Claim C7 -/

lemma applyWrites_notMem {K V : Type} [DecidableEq K] {l : List (K × V)} {A : K → V}
    {k : K} (hk : k ∉ l.map Prod.fst) : applyWrites l A k = A k := by
  induction l generalizing A with
  | nil => rfl
  | cons p rest ih =>
    simp only [List.map_cons, List.mem_cons, not_or] at hk
    simp only [applyWrites, List.foldl_cons]
    rw [show List.foldl (fun acc kv => Function.update acc kv.1 kv.2)
        (Function.update A p.1 p.2) rest =
        applyWrites rest (Function.update A p.1 p.2) from rfl]
    rw [ih hk.2, Function.update_noteq hk.1]

lemma applyWrites_nodup {K V : Type} [DecidableEq K] {l : List (K × V)}
    (hnd : (l.map Prod.fst).Nodup) {p : K × V} (hp : p ∈ l) (A : K → V) :
    applyWrites l A p.1 = p.2 := by
  induction l generalizing A with
  | nil => cases hp
  | cons q rest ih =>
    simp only [List.map_cons, List.nodup_cons] at hnd
    simp only [applyWrites, List.foldl_cons]
    rw [show List.foldl (fun acc kv => Function.update acc kv.1 kv.2)
        (Function.update A q.1 q.2) rest =
        applyWrites rest (Function.update A q.1 q.2) from rfl]
    rcases List.mem_cons.mp hp with rfl | hmem
    · rw [applyWrites_notMem hnd.1, Function.update_same]
    · exact ih hnd.2 hmem _

lemma applyWrites_constVal {K V : Type} [DecidableEq K] {l : List (K × V)} {b : V}
    (hval : ∀ p ∈ l, p.2 = b) (A : K → V) (k : K) :
    applyWrites l A k = if k ∈ l.map Prod.fst then b else A k := by
  induction l generalizing A with
  | nil => simp [applyWrites]
  | cons q rest ih =>
    simp only [applyWrites, List.foldl_cons]
    rw [show List.foldl (fun acc kv => Function.update acc kv.1 kv.2)
        (Function.update A q.1 q.2) rest =
        applyWrites rest (Function.update A q.1 q.2) from rfl]
    rw [ih (fun p hp => hval p (List.mem_cons_of_mem _ hp))]
    by_cases hk : k ∈ rest.map Prod.fst
    · simp [hk]
    · by_cases hkq : k = q.1
      · subst hkq
        simp only [hk, if_false, Function.update_same, List.map_cons, List.mem_cons]
        simp only [true_or, if_true]
        exact hval q (List.mem_cons_self _ _)
      · rw [Function.update_noteq hkq]
        simp only [List.map_cons, List.mem_cons]
        rw [if_neg (not_or.mpr ⟨hkq, hk⟩), if_neg hk]

lemma mem_checkCoords {H W : ℕ} {c : ℕ × ℕ} :
    c ∈ checkCoords H W ↔ c.1 < H ∧ c.2 < W ∧ (c.1 + c.2) % 2 = 0 := by
  cases c with
  | mk x y =>
    simp [checkCoords, List.mem_filter, List.mem_product, List.mem_range, and_assoc]

lemma fwd_inj_on_even {x y x2 y2 : ℕ} (hx : (x + y) % 2 = 0) (hx2 : (x2 + y2) % 2 = 0)
    (heq : fwd (x, y) = fwd (x2, y2)) : (x, y) = (x2, y2) := by
  simp only [fwd, Prod.mk.injEq] at heq ⊢
  omega

lemma checkCoords_nodup (H W : ℕ) : (checkCoords H W).Nodup :=
  List.Nodup.filter _ (List.Nodup.product (List.nodup_range _) (List.nodup_range _))

lemma checkCoords_map_fwd_nodup (H W : ℕ) : ((checkCoords H W).map fwd).Nodup := by
  apply List.Nodup.map_on _ (checkCoords_nodup H W)
  intro c hc d hd heq
  have hcm := mem_checkCoords.mp hc
  have hdm := mem_checkCoords.mp hd
  cases c with
  | mk x y =>
    cases d with
    | mk x2 y2 => exact fwd_inj_on_even hcm.2.2 hdm.2.2 heq

/-- C7: the hexagonal forward map `(x, y) ↦ ((x + y) // 2, y)` is injective on
the checkerboard subset where `x + y` is even; consequently the list of
write-back targets of `_distance`'s `mapped[(x + y) // 2, y] = distances[x, y]`
has no duplicates, and the written-back array reads each checkerboard
position's value back exactly once (no coordinate dropped or duplicated). -/
theorem C7_hex_remap_injective :
    (∀ x y x2 y2 : ℕ, (x + y) % 2 = 0 → (x2 + y2) % 2 = 0 →
      fwd (x, y) = fwd (x2, y2) → (x, y) = (x2, y2)) ∧
    (∀ H W : ℕ, ((checkCoords H W).map fwd).Nodup) ∧
    (∀ (H W : ℕ) (dist : ℕ → ℕ → ℚ) (c : ℕ × ℕ), c ∈ checkCoords H W →
      applyWrites ((checkCoords H W).map fun d => (fwd d, dist d.1 d.2))
        (fun _ => (0 : ℚ)) (fwd c) = dist c.1 c.2) := by
  refine ⟨fun x y x2 y2 hx hx2 heq => fwd_inj_on_even hx hx2 heq,
    checkCoords_map_fwd_nodup, ?_⟩
  intro H W dist c hc
  have hfst : ((checkCoords H W).map fun d => (fwd d, dist d.1 d.2)).map Prod.fst =
      (checkCoords H W).map fwd := by
    rw [List.map_map]
    rfl
  have hnd : (((checkCoords H W).map fun d => (fwd d, dist d.1 d.2)).map Prod.fst).Nodup := by
    rw [hfst]
    exact checkCoords_map_fwd_nodup H W
  exact applyWrites_nodup hnd (List.mem_map_of_mem _ hc) _

theorem C7_hex_remap_injective_witness :
    ((0, 0) : ℕ × ℕ) ∈ checkCoords 2 2 ∧
    applyWrites ((checkCoords 2 2).map fun d => (fwd d, (fun _ _ => (7 : ℚ)) d.1 d.2))
      (fun _ => (0 : ℚ)) (fwd (0, 0)) = (fun _ _ => (7 : ℚ)) 0 0 :=
  ⟨by decide,
    C7_hex_remap_injective.2.2 2 2 (fun _ _ => 7) (0, 0) (by decide)⟩

/-! ## Claim C8 -/

lemma padFlip_b2n (bv : Bool) : padFlip [b2n bv] = [b2n bv] := by
  cases bv <;> rfl

lemma padFlip_iter_b2n (bv : Bool) : ∀ k, padFlip^[k] [b2n bv] = [b2n bv] :=
  fun k => Function.iterate_fixed (padFlip_b2n bv) k

lemma padWrites_val {H W : ℕ} {bv : Bool} :
    ∀ p ∈ padWrites H W [b2n bv], p.2 = b2n bv := by
  intro p hp
  simp only [padWrites, List.mem_append, List.mem_flatMap, List.mem_range,
    padFlip_iter_b2n] at hp
  rcases hp with ⟨j, hj, hpmem⟩ | ⟨i, hi, hpmem⟩ <;>
    simp only [List.mem_cons, List.not_mem_nil, or_false] at hpmem <;>
    rcases hpmem with rfl | rfl <;> rfl

lemma padWrites_keys {H W : ℕ} {pad0 : List ℕ} {i j : ℕ} :
    (i, j) ∈ (padWrites H W pad0).map Prod.fst ↔
      ((i = 0 ∨ i = H + 1) ∧ j < W + 2) ∨ ((j = 0 ∨ j = W + 1) ∧ i < H + 2) := by
  simp only [padWrites, List.map_append, List.mem_append, List.mem_map,
    List.mem_flatMap, List.mem_range, List.mem_cons, List.not_mem_nil, or_false]
  constructor
  · rintro (⟨p, ⟨c, hc, rfl | rfl⟩, hpf⟩ | ⟨p, ⟨c, hc, rfl | rfl⟩, hpf⟩) <;>
      simp only [Prod.mk.injEq] at hpf <;> omega
  · rintro (⟨rfl | rfl, hj⟩ | ⟨rfl | rfl, hi⟩)
    · exact Or.inl ⟨_, ⟨j, hj, Or.inl rfl⟩, rfl⟩
    · exact Or.inl ⟨_, ⟨j, hj, Or.inr rfl⟩, rfl⟩
    · exact Or.inr ⟨_, ⟨i, hi, Or.inl rfl⟩, rfl⟩
    · exact Or.inr ⟨_, ⟨i, hi, Or.inr rfl⟩, rfl⟩

lemma npPad2_eq_constPad {H W : ℕ} (A : ℕ → ℕ → ℕ) (bv : Bool) (i j : ℕ) :
    npPad2 H W A [b2n bv] i j = specConstPad H W (b2n bv) A i j := by
  rw [npPad2, applyWrites_constVal padWrites_val, specConstPad]
  by_cases hint : 1 ≤ i ∧ i ≤ H ∧ 1 ≤ j ∧ j ≤ W
  · have hkey : (i, j) ∉ (padWrites H W [b2n bv]).map Prod.fst := by
      rw [padWrites_keys]
      omega
    rw [if_neg hkey, if_pos hint, if_pos hint]
  · by_cases hrange : i ≤ H + 1 ∧ j ≤ W + 1
    · have hkey : (i, j) ∈ (padWrites H W [b2n bv]).map Prod.fst := by
        rw [padWrites_keys]
        omega
      rw [if_pos hkey, if_neg hint, if_pos hrange]
    · have hkey : (i, j) ∉ (padWrites H W [b2n bv]).map Prod.fst := by
        rw [padWrites_keys]
        omega
      rw [if_neg hkey, if_neg hint, if_neg hint, if_neg hrange]

/-- C8: for a non-visium `_distance` call, the pad list is the one-element
`[border_value]`, whose two aliasing complement flips cancel, so the callback
state is unchanged after every call and every padded vector receives the
border value; the callback padding therefore equals a constant one-pixel
border of the border value, the distance transform runs on that padded array,
and stripping the padding gives an output of the input's shape. -/
theorem C8_padding (h w : ℕ) (img : ℕ → ℕ → Bool) (sq : ℚ) (bv : Bool)
    (tissue : ℕ → ℕ → Bool) :
    (∀ k, padFlip^[k] [b2n bv] = [b2n bv]) ∧
    (∀ i j, npPad2 h w (fun p q => b2n (maskedInit img tissue bv p q)) [b2n bv] i j =
      specConstPad h w (b2n bv) (fun p q => b2n (maskedInit img tissue bv p q)) i j) ∧
    (distanceFn h w img sq bv tissue false).1 = (h, w) ∧
    (∀ i j, (distanceFn h w img sq bv tissue false).2 i j =
      if tissue i j then
        edt2 (h + 2) (w + 2)
          (specConstPad h w (b2n bv) (fun p q => b2n (maskedInit img tissue bv p q)))
          sq sq (i + 1) (j + 1)
      else 0) := by
  have hpad : npPad2 h w (fun p q => b2n (maskedInit img tissue bv p q)) [b2n bv] =
      specConstPad h w (b2n bv) (fun p q => b2n (maskedInit img tissue bv p q)) :=
    funext fun i => funext fun j => npPad2_eq_constPad _ bv i j
  refine ⟨padFlip_iter_b2n bv, npPad2_eq_constPad _ bv, rfl, ?_⟩
  intro i j
  show (if tissue i j then
      edt2 (h + 2) (w + 2)
        (npPad2 h w (fun p q => b2n (maskedInit img tissue bv p q)) [b2n bv])
        sq sq (i + 1) (j + 1)
    else 0) = _
  rw [hpad]

/-! ## Claim C10 -/

lemma halloc_next (hp : Heap) (v : ℕ → ℕ → ℚ) : (halloc hp v).1.next = hp.next + 1 := rfl

lemma halloc_ref (hp : Heap) (v : ℕ → ℕ → ℚ) : (halloc hp v).2 = hp.next := rfl

lemma hwrite_next (hp : Heap) (r' : ℕ) (v : ℕ → ℕ → ℚ) :
    (hwrite hp r' v).next = hp.next := rfl

lemma halloc_mem_lt {hp : Heap} {v : ℕ → ℕ → ℚ} {r : ℕ} (hr : r < hp.next) :
    (halloc hp v).1.mem r = hp.mem r := by
  show Function.update hp.mem hp.next v r = hp.mem r
  exact Function.update_noteq (by omega) _ _

lemma hwrite_mem_ne {hp : Heap} {r' : ℕ} {v : ℕ → ℕ → ℚ} {r : ℕ} (hr : r ≠ r') :
    (hwrite hp r' v).mem r = hp.mem r :=
  Function.update_noteq hr _ _

lemma distanceHeap_next (hp : Heap) (h w rimg : ℕ) (sq : ℚ) (bv : Bool)
    (rtiss : ℕ) (visium : Bool) :
    (distanceHeap hp h w rimg sq bv rtiss visium).1.next = hp.next + 1 := rfl

lemma distanceHeap_ref (hp : Heap) (h w rimg : ℕ) (sq : ℚ) (bv : Bool)
    (rtiss : ℕ) (visium : Bool) :
    (distanceHeap hp h w rimg sq bv rtiss visium).2 = hp.next := rfl

lemma distanceHeap_mem {hp : Heap} {h w rimg : ℕ} {sq : ℚ} {bv : Bool}
    {rtiss : ℕ} {visium : Bool} {r : ℕ} (h1 : r ≠ rimg) (h2 : r < hp.next) :
    (distanceHeap hp h w rimg sq bv rtiss visium).1.mem r = hp.mem r := by
  simp only [distanceHeap]
  rw [halloc_mem_lt (show r < (hwrite hp rimg _).next from h2), hwrite_mem_ne h1]

lemma layerHeap_next (hp : Heap) (h w rimg : ℕ) (S : SElem) (bv : Bool)
    (rtiss fuel : ℕ) :
    (layerHeap hp h w rimg S bv rtiss fuel).1.next = hp.next + 1 := rfl

lemma layerHeap_ref (hp : Heap) (h w rimg : ℕ) (S : SElem) (bv : Bool)
    (rtiss fuel : ℕ) :
    (layerHeap hp h w rimg S bv rtiss fuel).2 = hp.next := rfl

lemma layerHeap_mem {hp : Heap} {h w rimg : ℕ} {S : SElem} {bv : Bool}
    {rtiss fuel : ℕ} {r : ℕ} (h1 : r ≠ rimg) (h2 : r < hp.next) :
    (layerHeap hp h w rimg S bv rtiss fuel).1.mem r = hp.mem r := by
  simp only [layerHeap]
  rw [halloc_mem_lt (show r < (hwrite (hwrite hp rimg _) rimg _).next from h2),
    hwrite_mem_ne h1, hwrite_mem_ne h1]

/-- C10: the four wrapper methods never modify the caller's image or tissue
arrays.  The helpers do assign into their image argument in place, but every
helper call receives a freshly allocated boolean array derived from the
input, so after any call every reference that existed before the call reads
back unchanged — in particular the caller's image and tissue references. -/
theorem C10_caller_arrays_unchanged (hp : Heap) (h w : ℕ) (rimg rtiss : ℕ)
    (sq : ℚ) (visium : Bool) (S : SElem) (fuel : ℕ)
    (hr : rimg < hp.next) (ht : rtiss < hp.next) :
    ((Distance.minimumHeap hp h w rimg rtiss sq visium).1.mem rimg = hp.mem rimg ∧
      (Distance.minimumHeap hp h w rimg rtiss sq visium).1.mem rtiss = hp.mem rtiss) ∧
    ((Distance.maximumHeap hp h w rimg rtiss sq visium).1.mem rimg = hp.mem rimg ∧
      (Distance.maximumHeap hp h w rimg rtiss sq visium).1.mem rtiss = hp.mem rtiss) ∧
    ((Layer.minimumHeap hp h w rimg rtiss S fuel).1.mem rimg = hp.mem rimg ∧
      (Layer.minimumHeap hp h w rimg rtiss S fuel).1.mem rtiss = hp.mem rtiss) ∧
    ((Layer.maximumHeap hp h w rimg rtiss S fuel).1.mem rimg = hp.mem rimg ∧
      (Layer.maximumHeap hp h w rimg rtiss S fuel).1.mem rtiss = hp.mem rtiss) := by
  have gen : ∀ r, r < hp.next →
      (Distance.minimumHeap hp h w rimg rtiss sq visium).1.mem r = hp.mem r ∧
      (Distance.maximumHeap hp h w rimg rtiss sq visium).1.mem r = hp.mem r ∧
      (Layer.minimumHeap hp h w rimg rtiss S fuel).1.mem r = hp.mem r ∧
      (Layer.maximumHeap hp h w rimg rtiss S fuel).1.mem r = hp.mem r := by
    intro r hrr
    refine ⟨?_, ?_, ?_, ?_⟩
    · simp only [Distance.minimumHeap]
      rw [hwrite_mem_ne, distanceHeap_mem, distanceHeap_mem, halloc_mem_lt,
          halloc_mem_lt hrr] <;>
        simp only [distanceHeap_next, distanceHeap_ref, halloc_next, halloc_ref,
          hwrite_next] <;> omega
    · simp only [Distance.maximumHeap]
      rw [hwrite_mem_ne, distanceHeap_mem, distanceHeap_mem, halloc_mem_lt,
          halloc_mem_lt hrr] <;>
        simp only [distanceHeap_next, distanceHeap_ref, halloc_next, halloc_ref,
          hwrite_next] <;> omega
    · simp only [Layer.minimumHeap]
      rw [hwrite_mem_ne, layerHeap_mem, layerHeap_mem, halloc_mem_lt,
          halloc_mem_lt hrr] <;>
        simp only [layerHeap_next, layerHeap_ref, halloc_next, halloc_ref,
          hwrite_next] <;> omega
    · simp only [Layer.maximumHeap]
      rw [hwrite_mem_ne, layerHeap_mem, layerHeap_mem, halloc_mem_lt,
          halloc_mem_lt hrr] <;>
        simp only [layerHeap_next, layerHeap_ref, halloc_next, halloc_ref,
          hwrite_next] <;> omega
  exact ⟨⟨(gen rimg hr).1, (gen rtiss ht).1⟩,
    ⟨(gen rimg hr).2.1, (gen rtiss ht).2.1⟩,
    ⟨(gen rimg hr).2.2.1, (gen rtiss ht).2.2.1⟩,
    ⟨(gen rimg hr).2.2.2, (gen rtiss ht).2.2.2⟩⟩

theorem C10_caller_arrays_unchanged_witness :
    ((Distance.minimumHeap ⟨2, fun _ _ _ => 1⟩ 1 1 0 1 1 false).1.mem 0 =
        (Heap.mk 2 (fun _ _ _ => 1)).mem 0 ∧
      (Distance.minimumHeap ⟨2, fun _ _ _ => 1⟩ 1 1 0 1 1 false).1.mem 1 =
        (Heap.mk 2 (fun _ _ _ => 1)).mem 1) ∧
    ((Distance.maximumHeap ⟨2, fun _ _ _ => 1⟩ 1 1 0 1 1 false).1.mem 0 =
        (Heap.mk 2 (fun _ _ _ => 1)).mem 0 ∧
      (Distance.maximumHeap ⟨2, fun _ _ _ => 1⟩ 1 1 0 1 1 false).1.mem 1 =
        (Heap.mk 2 (fun _ _ _ => 1)).mem 1) ∧
    ((Layer.minimumHeap ⟨2, fun _ _ _ => 1⟩ 1 1 0 1 crossSE 2).1.mem 0 =
        (Heap.mk 2 (fun _ _ _ => 1)).mem 0 ∧
      (Layer.minimumHeap ⟨2, fun _ _ _ => 1⟩ 1 1 0 1 crossSE 2).1.mem 1 =
        (Heap.mk 2 (fun _ _ _ => 1)).mem 1) ∧
    ((Layer.maximumHeap ⟨2, fun _ _ _ => 1⟩ 1 1 0 1 crossSE 2).1.mem 0 =
        (Heap.mk 2 (fun _ _ _ => 1)).mem 0 ∧
      (Layer.maximumHeap ⟨2, fun _ _ _ => 1⟩ 1 1 0 1 crossSE 2).1.mem 1 =
        (Heap.mk 2 (fun _ _ _ => 1)).mem 1) :=
  C10_caller_arrays_unchanged ⟨2, fun _ _ _ => 1⟩ 1 1 0 1 1 false crossSE 2
    (by decide) (by decide)

end Morph
